import Mathlib

/-!
Verification development for the springchess engine specification.

The shipped repository delegates all chess rules to the external chess.js
library: `src/app/components/ChessBoard.tsx` only clones the game via FEN,
tries a move on the clone, and replaces its React state on success.  The
specification defines the engine such a platform needs (Board, MoveGenerator,
CheckDetector, NotationCodec, MoveHistory, GameController).  The engine
definitions below are therefore modelled from the specification text; the
component-level definitions (`makeAMove`, `onDrop`) are shallow embeddings of
the TypeScript in `ChessBoard.tsx`.

FEN text is embedded as `List Char`; numbers are `Nat`.
-/

/-- Modelled from the spec: piece kinds (spec section 3, Piece). -/
inductive PieceKind where
  | pawn | knight | bishop | rook | queen | king
deriving DecidableEq, Repr

/-- Modelled from the spec: piece colors (spec section 3, Piece). -/
inductive Color where
  | white | black
deriving DecidableEq, Repr

/-- Modelled from the spec: a piece is a kind together with a color. -/
structure Piece where
  kind : PieceKind
  color : Color
deriving DecidableEq, Repr

/-- Opponent of a color. -/
def Color.opposite : Color → Color
  | .white => .black
  | .black => .white

/-- Modelled from the spec: a square is a file (0-7) and a rank (0-7). -/
structure Square where
  file : Fin 8
  rank : Fin 8
deriving DecidableEq, Repr, Fintype

/-- Modelled from the spec: Board, a mapping from Square to optional Piece.
Stored as the list of ranks in FEN scan order: entry 0 is rank 8 (rank
index 7), each rank listing files a through h. -/
structure Board where
  ranks : List (List (Option Piece))
deriving DecidableEq, Repr

/-- Piece at a square (spec: `pieceAt(Square) -> optional Piece`). -/
def Board.pieceAt (b : Board) (sq : Square) : Option Piece :=
  ((b.ranks.getD (7 - sq.rank.val) []).getD sq.file.val none)

/-- Board with one square overwritten; helper for `withMove`. -/
def Board.setPiece (b : Board) (sq : Square) (v : Option Piece) : Board :=
  ⟨b.ranks.set (7 - sq.rank.val) ((b.ranks.getD (7 - sq.rank.val) []).set sq.file.val v)⟩

/-- Offset a square by a (file, rank) delta, `none` when off the board. -/
def Square.shift (sq : Square) (df dr : Int) : Option Square :=
  if h : 0 ≤ (sq.file.val : Int) + df ∧ (sq.file.val : Int) + df < 8 ∧
      0 ≤ (sq.rank.val : Int) + dr ∧ (sq.rank.val : Int) + dr < 8 then
    some ⟨⟨((sq.file.val : Int) + df).toNat, by omega⟩, ⟨((sq.rank.val : Int) + dr).toNat, by omega⟩⟩
  else
    none

/-- Knight jump offsets (spec section 4.1 and 4.2, fixed offset tables). -/
def knightOffsets : List (Int × Int) :=
  [(1, 2), (2, 1), (2, -1), (1, -2), (-1, -2), (-2, -1), (-2, 1), (-1, 2)]

/-- King adjacency offsets (spec section 4.1 and 4.2, fixed offset tables). -/
def kingOffsets : List (Int × Int) :=
  [(1, 0), (1, 1), (0, 1), (-1, 1), (-1, 0), (-1, -1), (0, -1), (1, -1)]

/-- Diagonal ray directions for bishops and queens. -/
def bishopDirs : List (Int × Int) :=
  [(1, 1), (1, -1), (-1, 1), (-1, -1)]

/-- Orthogonal ray directions for rooks and queens. -/
def rookDirs : List (Int × Int) :=
  [(1, 0), (-1, 0), (0, 1), (0, -1)]

/-- Forward rank direction of a color's pawns. -/
def pawnDir (c : Color) : Int :=
  match c with
  | .white => 1
  | .black => -1

/-- First piece met walking from `sq` along direction `d` (fueled by the
board diameter; spec: sliding rays stopped at the first occupied square). -/
def Board.rayFirst (b : Board) (sq : Square) (d : Int × Int) : Nat → Option Piece
  | 0 => none
  | n + 1 =>
    match sq.shift d.1 d.2 with
    | none => none
    | some sq2 =>
      match b.pieceAt sq2 with
      | some p => some p
      | none => b.rayFirst sq2 d n

/-- Modelled from the spec: `isSquareAttacked(Square, byColor)` scans all
attacker classes: pawn diagonals, knight jumps, king adjacency, and sliding
rays for bishop, rook and queen stopped at the first occupied square
(spec section 4.1). -/
def Board.isSquareAttacked (b : Board) (sq : Square) (byColor : Color) : Bool :=
  let pawnHit := [(-1 : Int), 1].any fun df =>
    match sq.shift df (-(pawnDir byColor)) with
    | some s2 => b.pieceAt s2 = some ⟨.pawn, byColor⟩
    | none => false
  let knightHit := knightOffsets.any fun d =>
    match sq.shift d.1 d.2 with
    | some s2 => b.pieceAt s2 = some ⟨.knight, byColor⟩
    | none => false
  let kingHit := kingOffsets.any fun d =>
    match sq.shift d.1 d.2 with
    | some s2 => b.pieceAt s2 = some ⟨.king, byColor⟩
    | none => false
  let diagHit := bishopDirs.any fun d =>
    match b.rayFirst sq d 8 with
    | some p => p.color = byColor && (p.kind = .bishop || p.kind = .queen)
    | none => false
  let orthoHit := rookDirs.any fun d =>
    match b.rayFirst sq d 8 with
    | some p => p.color = byColor && (p.kind = .rook || p.kind = .queen)
    | none => false
  pawnHit || knightHit || kingHit || diagHit || orthoHit

/-- All 64 squares, rank by rank. -/
def allSquares : List Square :=
  (List.finRange 8).flatMap fun r => (List.finRange 8).map fun f => ⟨f, r⟩

/-- Square of the first king of color `c` found on the board. -/
def Board.kingSquare (b : Board) (c : Color) : Option Square :=
  allSquares.find? fun sq => b.pieceAt sq = some ⟨.king, c⟩

/-- Modelled from the spec: the flag set of a Move (spec section 3):
Capture, DoublePawnPush, EnPassant, CastleKingside, CastleQueenside,
Promotion, each an independent boolean membership flag. -/
structure MoveFlags where
  capture : Bool
  doublePawnPush : Bool
  enPassant : Bool
  castleKingside : Bool
  castleQueenside : Bool
  promotion : Bool
deriving DecidableEq, Repr

/-- The empty flag set. -/
def baseFlags : MoveFlags :=
  ⟨false, false, false, false, false, false⟩

/-- Modelled from the spec: a Move records from, to, the moving piece, an
optional captured piece, an optional promotion kind and its flags
(spec section 3). -/
structure Move where
  fromSq : Square
  toSq : Square
  movingPiece : Piece
  captured : Option Piece
  promotion : Option PieceKind
  flags : MoveFlags
deriving DecidableEq, Repr

/-- Modelled from the spec: the four independent castling-right booleans:
White-kingside, White-queenside, Black-kingside, Black-queenside. -/
structure CastlingRights where
  wk : Bool
  wq : Bool
  bk : Bool
  bq : Bool
deriving DecidableEq, Repr, Fintype

/-- Modelled from the spec: GameResult variants (spec section 3). -/
inductive GameResult where
  | ongoing
  | check (colorInCheck : Color)
  | checkmate (winner : Color)
  | stalemate
  | drawFiftyMove
  | drawRepetition
  | drawInsufficientMaterial
  | drawByAgreement
deriving DecidableEq, Repr

/-- Modelled from the spec: GameState bundles board, side to move, castling
rights, en passant target, halfmove clock, fullmove number and the current
result (spec section 3). -/
structure GameState where
  board : Board
  sideToMove : Color
  castlingRights : CastlingRights
  enPassantTarget : Option Square
  halfmoveClock : Nat
  fullmoveNumber : Nat
  result : GameResult
deriving DecidableEq, Repr

/-- Modelled from the spec: `withMove` returns a new board reflecting the
move, including the side-effects of en passant capture and castling rook
relocation; the source board is unchanged (spec section 4.1). -/
def Board.withMove (b : Board) (m : Move) : Board :=
  let placed : Piece :=
    match m.promotion with
    | some k => ⟨k, m.movingPiece.color⟩
    | none => m.movingPiece
  let b1 := (b.setPiece m.fromSq none).setPiece m.toSq (some placed)
  let b2 :=
    if m.flags.enPassant then b1.setPiece ⟨m.toSq.file, m.fromSq.rank⟩ none else b1
  if m.flags.castleKingside then
    (b2.setPiece ⟨7, m.fromSq.rank⟩ none).setPiece ⟨5, m.fromSq.rank⟩ (some ⟨.rook, m.movingPiece.color⟩)
  else if m.flags.castleQueenside then
    (b2.setPiece ⟨0, m.fromSq.rank⟩ none).setPiece ⟨3, m.fromSq.rank⟩ (some ⟨.rook, m.movingPiece.color⟩)
  else
    b2

/-- Last rank for a color's pawns (promotion rank). -/
def lastRank (c : Color) : Fin 8 :=
  match c with
  | .white => 7
  | .black => 0

/-- Starting rank of a color's pawns (double-push origin). -/
def startRank (c : Color) : Fin 8 :=
  match c with
  | .white => 1
  | .black => 6

/-- The four kinds a pawn may promote to; the generator enumerates one
candidate per promotion kind (spec section 4.2). -/
def promoKinds : List PieceKind :=
  [.knight, .bishop, .rook, .queen]

/-- Expand a pawn move into the four promotion candidates when it reaches
the last rank, else keep it as a single non-promoting candidate. -/
def promoExpand (c : Color) (m : Move) : List Move :=
  if m.toSq.rank = lastRank c then
    promoKinds.map fun k =>
      { m with promotion := some k, flags := { m.flags with promotion := true } }
  else
    [m]

/-- Modelled from the spec: pawn pseudo-legal generation: single push,
double push only from the starting rank, diagonal capture, en passant
capture onto the current EnPassantTarget, promotion on the last rank
(spec section 4.2). -/
def pawnMoves (st : GameState) (sq : Square) (c : Color) : List Move :=
  let dir := pawnDir c
  let piece : Piece := ⟨.pawn, c⟩
  let single : List Move :=
    match sq.shift 0 dir with
    | some t =>
      if st.board.pieceAt t = none then
        promoExpand c ⟨sq, t, piece, none, none, baseFlags⟩
      else []
    | none => []
  let dble : List Move :=
    if sq.rank = startRank c then
      match sq.shift 0 dir, sq.shift 0 (2 * dir) with
      | some t1, some t2 =>
        if st.board.pieceAt t1 = none ∧ st.board.pieceAt t2 = none then
          [⟨sq, t2, piece, none, none, { baseFlags with doublePawnPush := true }⟩]
        else []
      | _, _ => []
    else []
  let caps : List Move :=
    [(-1 : Int), 1].flatMap fun df =>
      match sq.shift df dir with
      | some t =>
        match st.board.pieceAt t with
        | some q =>
          if q.color ≠ c then
            promoExpand c ⟨sq, t, piece, some q, none, { baseFlags with capture := true }⟩
          else []
        | none =>
          if st.enPassantTarget = some t then
            [⟨sq, t, piece, some ⟨.pawn, c.opposite⟩, none,
              { baseFlags with capture := true, enPassant := true }⟩]
          else []
      | none => []
  single ++ dble ++ caps

/-- Fixed-offset generation shared by knight and king (spec section 4.2). -/
def stepMoves (st : GameState) (sq : Square) (p : Piece) (offs : List (Int × Int)) : List Move :=
  offs.flatMap fun d =>
    match sq.shift d.1 d.2 with
    | some t =>
      match st.board.pieceAt t with
      | some q =>
        if q.color ≠ p.color then
          [⟨sq, t, p, some q, none, { baseFlags with capture := true }⟩]
        else []
      | none => [⟨sq, t, p, none, none, baseFlags⟩]
    | none => []

/-- Walk one ray, collecting quiet moves until blocked: capture if the
blocker is an enemy, stop before it if friendly (spec section 4.2). -/
def rayMoves (st : GameState) (origin : Square) (p : Piece) (d : Int × Int) :
    Nat → Square → List Move
  | 0, _ => []
  | n + 1, cur =>
    match cur.shift d.1 d.2 with
    | none => []
    | some t =>
      match st.board.pieceAt t with
      | some q =>
        if q.color ≠ p.color then
          [⟨origin, t, p, some q, none, { baseFlags with capture := true }⟩]
        else []
      | none =>
        ⟨origin, t, p, none, none, baseFlags⟩ :: rayMoves st origin p d n t

/-- Sliding-piece generation: ray-cast along each direction (spec 4.2). -/
def slideMoves (st : GameState) (sq : Square) (p : Piece) (dirs : List (Int × Int)) : List Move :=
  dirs.flatMap fun d => rayMoves st sq p d 8 sq

/-- Modelled from the spec: castling generation: the relevant right must be
set, the squares between king and rook empty, and neither the king's start,
transit, nor destination square attacked by the opponent (spec 4.2). -/
def castleMoves (st : GameState) (sq : Square) (c : Color) : List Move :=
  let home : Fin 8 := match c with | .white => 0 | .black => 7
  let opp := c.opposite
  let kingHome : Square := ⟨4, home⟩
  let ks : List Move :=
    if (match c with | .white => st.castlingRights.wk | .black => st.castlingRights.bk) = true ∧
        sq = kingHome ∧
        st.board.pieceAt ⟨5, home⟩ = none ∧ st.board.pieceAt ⟨6, home⟩ = none ∧
        st.board.isSquareAttacked ⟨4, home⟩ opp = false ∧
        st.board.isSquareAttacked ⟨5, home⟩ opp = false ∧
        st.board.isSquareAttacked ⟨6, home⟩ opp = false then
      [⟨sq, ⟨6, home⟩, ⟨.king, c⟩, none, none, { baseFlags with castleKingside := true }⟩]
    else []
  let qs : List Move :=
    if (match c with | .white => st.castlingRights.wq | .black => st.castlingRights.bq) = true ∧
        sq = kingHome ∧
        st.board.pieceAt ⟨1, home⟩ = none ∧ st.board.pieceAt ⟨2, home⟩ = none ∧
        st.board.pieceAt ⟨3, home⟩ = none ∧
        st.board.isSquareAttacked ⟨4, home⟩ opp = false ∧
        st.board.isSquareAttacked ⟨3, home⟩ opp = false ∧
        st.board.isSquareAttacked ⟨2, home⟩ opp = false then
      [⟨sq, ⟨2, home⟩, ⟨.king, c⟩, none, none, { baseFlags with castleQueenside := true }⟩]
    else []
  ks ++ qs

/-- Pseudo-legal moves of one piece standing on `sq` (spec section 4.2). -/
def pieceMoves (st : GameState) (sq : Square) (p : Piece) : List Move :=
  match p.kind with
  | .pawn => pawnMoves st sq p.color
  | .knight => stepMoves st sq p knightOffsets
  | .bishop => slideMoves st sq p bishopDirs
  | .rook => slideMoves st sq p rookDirs
  | .queen => slideMoves st sq p (bishopDirs ++ rookDirs)
  | .king => stepMoves st sq p kingOffsets ++ castleMoves st sq p.color

/-- Modelled from the spec: the pseudo-legal move set: per-square, per-piece
generation for the side to move (spec section 4.2). -/
def pseudoLegalMoves (st : GameState) : List Move :=
  allSquares.flatMap fun sq =>
    match st.board.pieceAt sq with
    | some p => if p.color = st.sideToMove then pieceMoves st sq p else []
    | none => []

/-- Whether applying `m` to a cloned board leaves the mover's own king
attacked by the opponent (the legality filter of spec section 4.2). -/
def kingAttackedAfter (st : GameState) (m : Move) : Bool :=
  let b2 := st.board.withMove m
  match b2.kingSquare st.sideToMove with
  | some k => b2.isSquareAttacked k st.sideToMove.opposite
  | none => false

/-- Modelled from the spec: legal moves are the pseudo-legal moves with
those leaving the mover's own king attacked rejected (spec section 4.2). -/
def legalMoves (st : GameState) : List Move :=
  (pseudoLegalMoves st).filter fun m => !(kingAttackedAfter st m)

/-- Modelled from the spec: `isInCheck(GameState, color)` is
`isSquareAttacked(kingSquareOf(color), opponent(color))` (spec 4.3). -/
def GameState.isInCheck (st : GameState) (c : Color) : Bool :=
  match st.board.kingSquare c with
  | some k => st.board.isSquareAttacked k c.opposite
  | none => false

/-- Modelled from the spec: `legalMoveCount` is the size of the legal move
set (spec section 4.3). -/
def legalMoveCount (st : GameState) : Nat :=
  (legalMoves st).length

/-- All pieces standing on the board. -/
def boardPieces (b : Board) : List Piece :=
  b.ranks.flatMap (List.filterMap id)

/-- Modelled from the spec: the fixed insufficient-material lookup table:
K vs K, K+minor vs K and K+two-knights vs K are draws; any pawn, rook or
queen, or two bishops, or bishop+knight combinations are not (spec 4.3). -/
def insufficientMaterial (b : Board) : Bool :=
  let nonKing := (boardPieces b).filter fun p => p.kind ≠ .king
  if nonKing.any fun p => p.kind = .pawn ∨ p.kind = .rook ∨ p.kind = .queen then
    false
  else
    let wm := nonKing.filter fun p => p.color = .white
    let bm := nonKing.filter fun p => p.color = .black
    if nonKing.length ≤ 1 then true
    else if wm.length = 2 ∧ bm.length = 0 ∧ wm.all fun p => p.kind = .knight then true
    else if bm.length = 2 ∧ wm.length = 0 ∧ bm.all fun p => p.kind = .knight then true
    else false

/-- Modelled from the spec: terminal classification in the fixed priority
order Checkmate, Stalemate, DrawFiftyMove, DrawRepetition,
DrawInsufficientMaterial, Check, Ongoing; `rep` is the number of times the
current repetition key has occurred across history (spec section 4.3). -/
def computeResult (st : GameState) (rep : Nat) : GameResult :=
  if st.isInCheck st.sideToMove ∧ legalMoveCount st = 0 then
    .checkmate st.sideToMove.opposite
  else if legalMoveCount st = 0 then
    .stalemate
  else if 100 ≤ st.halfmoveClock then
    .drawFiftyMove
  else if 3 ≤ rep then
    .drawRepetition
  else if insufficientMaterial st.board then
    .drawInsufficientMaterial
  else if st.isInCheck st.sideToMove then
    .check st.sideToMove
  else
    .ongoing

/-- Home square of the white kingside rook. -/
def sqH1 : Square := ⟨7, 0⟩

/-- Home square of the white queenside rook. -/
def sqA1 : Square := ⟨0, 0⟩

/-- Home square of the black kingside rook. -/
def sqH8 : Square := ⟨7, 7⟩

/-- Home square of the black queenside rook. -/
def sqA8 : Square := ⟨0, 7⟩

/-- Modelled from the spec: moving the king, moving the relevant rook, or
having that rook captured clears the corresponding right; rights are never
set by a move (spec section 3 and section 8). -/
def updateRights (cr : CastlingRights) (m : Move) : CastlingRights :=
  let kingMove (c : Color) : Bool := decide (m.movingPiece = ⟨.king, c⟩)
  let touches (sq : Square) : Bool := decide (m.fromSq = sq ∨ m.toSq = sq)
  ⟨cr.wk && !(kingMove .white) && !(touches sqH1),
   cr.wq && !(kingMove .white) && !(touches sqA1),
   cr.bk && !(kingMove .black) && !(touches sqH8),
   cr.bq && !(kingMove .black) && !(touches sqA8)⟩

/-- Modelled from the spec: the successor GameState of applying a legal
move, before result classification: new board via `withMove`, side
flipped, rights updated, en passant target set only by a double pawn push,
halfmove clock reset on pawn moves and captures, fullmove number
incremented after Black's move (spec sections 3 and 4.6). -/
def applyMoveBase (st : GameState) (m : Move) : GameState :=
  { board := st.board.withMove m
    sideToMove := st.sideToMove.opposite
    castlingRights := updateRights st.castlingRights m
    enPassantTarget :=
      if m.flags.doublePawnPush then m.fromSq.shift 0 (pawnDir m.movingPiece.color) else none
    halfmoveClock :=
      if m.movingPiece.kind = .pawn ∨ m.captured ≠ none then 0 else st.halfmoveClock + 1
    fullmoveNumber :=
      if st.sideToMove = .black then st.fullmoveNumber + 1 else st.fullmoveNumber
    result := .ongoing }

/-- The successor state with its result reclassified at repetition count
`rep` (spec section 4.6: apply, then recompute the result via the
CheckDetector). -/
def applyMoveState (st : GameState) (m : Move) (rep : Nat) : GameState :=
  { applyMoveBase st m with result := computeResult (applyMoveBase st m) rep }

/-- Back rank piece order of the standard initial position. -/
def backRankPieces (c : Color) : List (Option Piece) :=
  [PieceKind.rook, .knight, .bishop, .queen, .king, .bishop, .knight, .rook].map
    fun k => some ⟨k, c⟩

/-- A rank of eight pawns of one color. -/
def pawnRank (c : Color) : List (Option Piece) :=
  List.replicate 8 (some ⟨.pawn, c⟩)

/-- An empty rank. -/
def emptyRank : List (Option Piece) :=
  List.replicate 8 none

/-- The standard initial board in FEN scan order (rank 8 first). -/
def initialBoard : Board :=
  ⟨[backRankPieces .black, pawnRank .black, emptyRank, emptyRank,
    emptyRank, emptyRank, pawnRank .white, backRankPieces .white]⟩

/-- Modelled from the spec: the standard initial GameState, the state the
component creates with `new Chess()` (spec section 4.6 initial state). -/
def initialGameState : GameState :=
  ⟨initialBoard, .white, ⟨true, true, true, true⟩, none, 0, 1, .ongoing⟩

/-- Modelled from the spec: engine error kinds relevant to `applyMove`
(spec section 7). -/
inductive EngineError where
  | invalidMove
  | gameOver
deriving DecidableEq, Repr

/-- Modelled from the spec: the wire-format candidate move
`{from, to, promotion?}` submitted to `applyMove` (spec section 6). -/
structure Candidate where
  fromSq : Square
  toSq : Square
  promotion : Option PieceKind
deriving DecidableEq, Repr

/-- Look up a candidate by (from, to, promotion) inside the current legal
move set (spec section 4.6). -/
def findCandidate (st : GameState) (c : Candidate) : Option Move :=
  (legalMoves st).find? fun m =>
    decide (m.fromSq = c.fromSq ∧ m.toSq = c.toSq ∧ m.promotion = c.promotion)

/-- Whether a result is terminal (Checkmate, Stalemate or any Draw);
Ongoing and Check accept further moves (spec section 4.6). -/
def GameResult.isTerminal : GameResult → Bool
  | .ongoing => false
  | .check _ => false
  | _ => true

/-- Modelled from the spec: state-level `applyMove` on a bare GameState
with no surrounding history (repetition count 1); this also models the
chess.js `move` call performed on the FEN clone in `makeAMove`. -/
def applyMoveG (st : GameState) (c : Candidate) : Except EngineError GameState :=
  match findCandidate st c with
  | none => .error .invalidMove
  | some m =>
    if st.result.isTerminal then .error .gameOver
    else .ok (applyMoveState st m 1)

/-- Modelled from the spec: GameController owning the current GameState and
the append-only MoveHistory of (Move, resulting GameState) pairs, most
recent first (spec sections 4.5 and 4.6). -/
structure GameController where
  initialState : GameState
  current : GameState
  history : List (Move × GameState)
deriving DecidableEq, Repr

/-- A fresh controller at a given state with empty history. -/
def newGameController (st : GameState) : GameController :=
  ⟨st, st, []⟩

/-- Modelled from the spec: the repetition key, the tuple of board, rights,
side to move and en-passant availability (spec section 4.3). -/
def positionKey (st : GameState) : Board × CastlingRights × Color × Option Square :=
  (st.board, st.castlingRights, st.sideToMove, st.enPassantTarget)

/-- Every GameState the controller has seen, most recent first. -/
def controllerStates (ctrl : GameController) : List GameState :=
  (ctrl.history.map Prod.snd) ++ [ctrl.initialState]

/-- Modelled from the spec: `repetitionCount(key)`, the number of recorded
states sharing a repetition key (spec section 4.5). -/
def repetitionCount (states : List GameState) (key : Board × CastlingRights × Color × Option Square) : Nat :=
  (states.filter fun s => decide (positionKey s = key)).length

/-- Modelled from the spec: the controller transition `applyMove`: look the
candidate up in the legal set, failing with InvalidMove if absent; fail
with GameOver if the game is already terminal; otherwise apply, append to
history, reclassify the result, and return the new GameState; on any error
the controller is returned unchanged (spec sections 4.6 and 7). -/
def GameController.applyMove (ctrl : GameController) (c : Candidate) :
    GameController × Except EngineError GameState :=
  match findCandidate ctrl.current c with
  | none => (ctrl, .error .invalidMove)
  | some m =>
    if ctrl.current.result.isTerminal then
      (ctrl, .error .gameOver)
    else
      let s0 := applyMoveState ctrl.current m 1
      let rep := 1 + repetitionCount (controllerStates ctrl) (positionKey s0)
      let s2 := applyMoveState ctrl.current m rep
      ({ ctrl with current := s2, history := (m, s2) :: ctrl.history }, .ok s2)

/-- Modelled from the spec: `undo()` pops the last history entry and
returns the GameState immediately preceding it, a no-op returning none on
empty history (spec section 4.5). -/
def GameController.undo (ctrl : GameController) : Option GameState × GameController :=
  match ctrl.history with
  | [] => (none, ctrl)
  | _ :: rest =>
    let prev :=
      match rest with
      | [] => ctrl.initialState
      | (_, g) :: _ => g
    (some prev, { ctrl with current := prev, history := rest })

/-- The controller invariant: the most recent recorded state (or the
initial state when history is empty) is the current state. -/
def controllerInv (ctrl : GameController) : Prop :=
  (match ctrl.history with
   | [] => ctrl.initialState
   | (_, g) :: _ => g) = ctrl.current

/-- Decimal digit character for a value below ten. -/
def digitChar (n : Nat) : Char :=
  Char.ofNat (48 + n)

/-- FEN letter of a piece: uppercase for White, lowercase for Black. -/
def pieceChar (p : Piece) : Char :=
  match p.color, p.kind with
  | .white, .pawn => 'P'
  | .white, .knight => 'N'
  | .white, .bishop => 'B'
  | .white, .rook => 'R'
  | .white, .queen => 'Q'
  | .white, .king => 'K'
  | .black, .pawn => 'p'
  | .black, .knight => 'n'
  | .black, .bishop => 'b'
  | .black, .rook => 'r'
  | .black, .queen => 'q'
  | .black, .king => 'k'

/-- Piece denoted by a FEN letter, `none` for any other character. -/
def charPiece (c : Char) : Option Piece :=
  match c with
  | 'P' => some ⟨.pawn, .white⟩
  | 'N' => some ⟨.knight, .white⟩
  | 'B' => some ⟨.bishop, .white⟩
  | 'R' => some ⟨.rook, .white⟩
  | 'Q' => some ⟨.queen, .white⟩
  | 'K' => some ⟨.king, .white⟩
  | 'p' => some ⟨.pawn, .black⟩
  | 'n' => some ⟨.knight, .black⟩
  | 'b' => some ⟨.bishop, .black⟩
  | 'r' => some ⟨.rook, .black⟩
  | 'q' => some ⟨.queen, .black⟩
  | 'k' => some ⟨.king, .black⟩
  | _ => none

/-- Emit one FEN rank, `n` being the count of empty squares pending a
run-length digit. -/
def emitRank : List (Option Piece) → Nat → List Char
  | [], 0 => []
  | [], n + 1 => [digitChar (n + 1)]
  | none :: rest, n => emitRank rest (n + 1)
  | some p :: rest, 0 => pieceChar p :: emitRank rest 0
  | some p :: rest, n + 1 => digitChar (n + 1) :: pieceChar p :: emitRank rest 0

/-- Expand one FEN rank text back into squares, digits becoming runs of
empty squares. -/
def rankExpand : List Char → Option (List (Option Piece))
  | [] => some []
  | c :: rest =>
    if c.isDigit then
      (rankExpand rest).map fun l => List.replicate (c.toNat - 48) none ++ l
    else
      match charPiece c with
      | some p => (rankExpand rest).map fun l => some p :: l
      | none => none

/-- Modelled from the spec: parse one rank of the FEN board field,
validated to cover exactly eight squares (spec section 4.4). -/
def parseRankField (cs : List Char) : Option (List (Option Piece)) :=
  match rankExpand cs with
  | some l => if l.length = 8 then some l else none
  | none => none

/-- Join chunks with a separator character. -/
def joinSep (sep : Char) : List (List Char) → List Char
  | [] => []
  | [x] => x
  | x :: xs => x ++ sep :: joinSep sep xs

/-- Split a character list at every occurrence of a separator. -/
def splitSep (sep : Char) : List Char → List (List Char)
  | [] => [[]]
  | c :: rest =>
    if c = sep then
      [] :: splitSep sep rest
    else
      match splitSep sep rest with
      | [] => [[c]]
      | chunk :: chunks => (c :: chunk) :: chunks

/-- Serialize the FEN board field: ranks from rank 8 down, joined by
slashes, empties run-length encoded (spec section 4.4). -/
def serializeBoardField (b : Board) : List Char :=
  joinSep '/' (b.ranks.map fun r => emitRank r 0)

/-- Parse a list of rank texts, failing if any rank fails. -/
def parseRanks : List (List Char) → Option (List (List (Option Piece)))
  | [] => some []
  | cs :: rest =>
    match parseRankField cs, parseRanks rest with
    | some r, some rs => some (r :: rs)
    | _, _ => none

/-- Parse the FEN board field: exactly eight slash-separated ranks, each
covering exactly eight squares (spec section 4.4). -/
def parseBoardField (cs : List Char) : Option Board :=
  if (splitSep '/' cs).length = 8 then
    match parseRanks (splitSep '/' cs) with
    | some rs => some ⟨rs⟩
    | none => none
  else none

/-- Serialize the FEN side-to-move field. -/
def serializeSide (c : Color) : List Char :=
  match c with
  | .white => ['w']
  | .black => ['b']

/-- Parse the FEN side-to-move field. -/
def parseSide (cs : List Char) : Option Color :=
  match cs with
  | ['w'] => some .white
  | ['b'] => some .black
  | _ => none

/-- Serialize castling rights in KQkq order, a dash when none remain
(spec section 4.4). -/
def serializeCastling (cr : CastlingRights) : List Char :=
  let s := (if cr.wk then ['K'] else []) ++ (if cr.wq then ['Q'] else []) ++
    (if cr.bk then ['k'] else []) ++ (if cr.bq then ['q'] else [])
  if s = [] then ['-'] else s

/-- Strip a leading expected character, reporting whether it was present. -/
def stripLead (c : Char) : List Char → Bool × List Char
  | [] => (false, [])
  | x :: rest => if x = c then (true, rest) else (false, x :: rest)

/-- Parse the FEN castling field: a dash, or a nonempty subsequence of
KQkq in that order (spec section 4.4). -/
def parseCastling (cs : List Char) : Option CastlingRights :=
  if cs = ['-'] then some ⟨false, false, false, false⟩
  else
    let r0 := stripLead 'K' cs
    let r1 := stripLead 'Q' r0.2
    let r2 := stripLead 'k' r1.2
    let r3 := stripLead 'q' r2.2
    if r3.2 = [] ∧ cs ≠ [] then some ⟨r0.1, r1.1, r2.1, r3.1⟩ else none

/-- File letter of a square, a through h. -/
def fileChar (f : Fin 8) : Char :=
  Char.ofNat (97 + f.val)

/-- Rank digit of a square, 1 through 8. -/
def rankChar (r : Fin 8) : Char :=
  Char.ofNat (49 + r.val)

/-- Serialize the FEN en-passant field, a dash for no target. -/
def serializeEp : Option Square → List Char
  | none => ['-']
  | some sq => [fileChar sq.file, rankChar sq.rank]

/-- Parse the FEN en-passant field: a dash, or a file letter followed by
rank 3 or rank 6, the only ranks a two-square pawn advance can expose
(spec section 3, EnPassantTarget validity). -/
def parseEp : List Char → Option (Option Square)
  | ['-'] => some none
  | [cf, cr] =>
    if _h : 97 ≤ cf.toNat ∧ cf.toNat ≤ 104 ∧ (cr.toNat = 51 ∨ cr.toNat = 54) then
      some (some ⟨⟨cf.toNat - 97, by omega⟩, ⟨cr.toNat - 49, by omega⟩⟩)
    else none
  | _ => none

/-- Fueled digit emitter; the fuel never runs out when it starts at the
number itself. -/
def natDigitsAux : Nat → Nat → List Char
  | 0, n => [digitChar n]
  | fuel + 1, n =>
    if n < 10 then [digitChar n]
    else natDigitsAux fuel (n / 10) ++ [digitChar (n % 10)]

/-- Decimal digits of a natural number, most significant first. -/
def natDigits (n : Nat) : List Char :=
  natDigitsAux n n

/-- Value of a list of decimal digit characters, most significant first. -/
def digitsVal (cs : List Char) : Nat :=
  cs.foldl (fun a c => a * 10 + (c.toNat - 48)) 0

/-- Parse a FEN clock field: a nonempty all-digit numeral. -/
def parseNatField (cs : List Char) : Option Nat :=
  if cs ≠ [] ∧ cs.all Char.isDigit then some (digitsVal cs) else none

/-- Modelled from the spec: FenParseError names the offending FEN field
(spec sections 4.4 and 7). -/
inductive FenParseError where
  | badFieldCount
  | badBoard
  | badSide
  | badCastling
  | badEnPassant
  | badHalfmove
  | badFullmove
deriving DecidableEq, Repr

/-- Modelled from the spec: FEN serialization: six space-separated fields:
board, side, castling, en passant, halfmove clock, fullmove number
(spec section 4.4). -/
def fenSerialize (st : GameState) : List Char :=
  joinSep ' '
    [serializeBoardField st.board, serializeSide st.sideToMove,
     serializeCastling st.castlingRights, serializeEp st.enPassantTarget,
     natDigits st.halfmoveClock, natDigits st.fullmoveNumber]

/-- Modelled from the spec: FEN parsing: six space-separated fields each
validated independently, malformed input failing with a FenParseError
naming the offending field; the result field of the parsed state is
reclassified from the position (spec section 4.4). -/
def fenParse (cs : List Char) : Except FenParseError GameState :=
  match splitSep ' ' cs with
  | [f1, f2, f3, f4, f5, f6] =>
    match parseBoardField f1 with
    | none => .error .badBoard
    | some b =>
      match parseSide f2 with
      | none => .error .badSide
      | some stm =>
        match parseCastling f3 with
        | none => .error .badCastling
        | some cr =>
          match parseEp f4 with
          | none => .error .badEnPassant
          | some ep =>
            match parseNatField f5 with
            | none => .error .badHalfmove
            | some hm =>
              match parseNatField f6 with
              | none => .error .badFullmove
              | some fm =>
                let base : GameState := ⟨b, stm, cr, ep, hm, fm, .ongoing⟩
                .ok { base with result := computeResult base 1 }
  | _ => .error .badFieldCount

/-- The React state of the ChessBoard component: the `game` value held in
`useState` (ChessBoard.tsx line 14). -/
structure ComponentState where
  game : GameState
deriving DecidableEq, Repr

/-- The clone `new Chess(game.fen())` taken before trying a move
(ChessBoard.tsx line 18); for any state whose FEN round-trips this is the
parsed serialization. -/
def cloneViaFen (st : GameState) : GameState :=
  match fenParse (fenSerialize st) with
  | .ok g => g
  | .error _ => st

/-- Shallow embedding of `makeAMove` (ChessBoard.tsx lines 16-29): try the
move on a FEN clone of the current game; on success replace the state via
`setGame` and return true; a falsy result or a thrown exception is caught
and returns false with the state untouched. -/
def makeAMove (st : ComponentState) (mv : Candidate) : Bool × ComponentState :=
  let gameCopy := cloneViaFen st.game
  match applyMoveG gameCopy mv with
  | .ok g2 => (true, ⟨g2⟩)
  | .error _ => (false, st)

/-- The candidate the drop handler submits: always `promotion: 'q'`
(ChessBoard.tsx lines 36-40). -/
def uiCandidate (src tgt : Square) : Candidate :=
  ⟨src, tgt, some .queen⟩

/-- Shallow embedding of `onDrop` (ChessBoard.tsx lines 31-52): null
source or target returns false without touching the game; otherwise the
move is tried through `makeAMove` and its boolean is returned. -/
def onDrop (st : ComponentState) (sourceSquare targetSquare : Option Square) : Bool × ComponentState :=
  match sourceSquare, targetSquare with
  | some src, some tgt =>
    let r := makeAMove st (uiCandidate src tgt)
    if r.1 then (true, r.2) else (false, r.2)
  | _, _ => (false, st)

/-- Shallow embedding of the second `onDrop` variant (ChessBoard.tsx,
turn-gated version): when the side to move is not the player's color the
handler returns false before the engine is ever invoked. -/
def onDropTurnGated (st : ComponentState) (playerColor : Color) (sourceSquare targetSquare : Square) : Bool × ComponentState :=
  if st.game.sideToMove ≠ playerColor then (false, st)
  else
    let r := makeAMove st (uiCandidate sourceSquare targetSquare)
    if r.1 then (true, r.2) else (false, r.2)

/-- An en-passant target is valid only on rank 3 or rank 6 (indices 2 and
5), the only ranks a two-square pawn advance can expose (spec section 3). -/
def epOkB : Option Square → Bool
  | none => true
  | some sq => decide (sq.rank.val = 2 ∨ sq.rank.val = 5)

/-- Well-formedness of a Board: exactly eight ranks of eight squares. -/
def boardWF (b : Board) : Prop :=
  b.ranks.length = 8 ∧ ∀ r ∈ b.ranks, r.length = 8

/-- Well-formedness of a GameState: the board has exactly eight ranks of
eight squares and any en-passant target sits on rank 3 or rank 6. -/
def stateWF (st : GameState) : Prop :=
  boardWF st.board ∧ epOkB st.enPassantTarget = true

/-- Structural facts about every move produced by the per-piece generators
for piece `p` on square `sq`: the move starts at `sq` moving `p`; a double
pawn push comes from the pawn starting rank; a pawn move landing on the
last rank other than an en-passant capture carries one of the four
promotion kinds; an en-passant capture lands on the en-passant target. -/
def genOk (st : GameState) (sq : Square) (p : Piece) (m : Move) : Prop :=
  m.fromSq = sq ∧ m.movingPiece = p ∧
  (m.flags.doublePawnPush = true → p.kind = .pawn ∧ sq.rank = startRank p.color) ∧
  (m.toSq.rank = lastRank p.color → p.kind = .pawn → m.flags.enPassant = false →
    ∃ k, k ∈ promoKinds ∧ m.promotion = some k) ∧
  (m.flags.enPassant = true → st.enPassantTarget = some m.toSq)

/-- Modelled from the spec: the reachable GameStates: the standard initial
position, any successfully parsed FEN, and anything a legal move leads to
from a reachable non-terminal state (spec section 3, lifecycle). -/
inductive Reachable : GameState → Prop
  | initial : Reachable initialGameState
  | ofFen (cs : List Char) (st : GameState) : fenParse cs = .ok st → Reachable st
  | step (st : GameState) (m : Move) (rep : Nat) : Reachable st → m ∈ legalMoves st →
      st.result.isTerminal = false → Reachable (applyMoveState st m rep)

/-- The wire-format candidate naming a generated move. -/
def candOf (m : Move) : Candidate :=
  ⟨m.fromSq, m.toSq, m.promotion⟩

/-- A position with a white pawn one step from promotion: white pawn a7,
black king h2, white king a1, white to move. -/
def promoTestState : GameState :=
  ⟨⟨[emptyRank, some ⟨.pawn, .white⟩ :: List.replicate 7 none, emptyRank, emptyRank,
     emptyRank, emptyRank, List.replicate 7 none ++ [some ⟨.king, .black⟩],
     some ⟨.king, .white⟩ :: List.replicate 7 none]⟩,
   .white, ⟨false, false, false, false⟩, none, 0, 1, .ongoing⟩

/-- The position after 1.f3 e5 2.g4 Qh4, white to move and checkmated, with
the halfmove clock artificially at 150 to exercise rule priority. -/
def foolsMateState : GameState :=
  ⟨⟨[[some ⟨.rook, .black⟩, some ⟨.knight, .black⟩, some ⟨.bishop, .black⟩, none,
      some ⟨.king, .black⟩, some ⟨.bishop, .black⟩, some ⟨.knight, .black⟩, some ⟨.rook, .black⟩],
     [some ⟨.pawn, .black⟩, some ⟨.pawn, .black⟩, some ⟨.pawn, .black⟩, some ⟨.pawn, .black⟩,
      none, some ⟨.pawn, .black⟩, some ⟨.pawn, .black⟩, some ⟨.pawn, .black⟩],
     emptyRank,
     [none, none, none, none, some ⟨.pawn, .black⟩, none, none, none],
     [none, none, none, none, none, none, some ⟨.pawn, .white⟩, some ⟨.queen, .black⟩],
     [none, none, none, none, none, some ⟨.pawn, .white⟩, none, none],
     [some ⟨.pawn, .white⟩, some ⟨.pawn, .white⟩, some ⟨.pawn, .white⟩, some ⟨.pawn, .white⟩,
      some ⟨.pawn, .white⟩, none, none, some ⟨.pawn, .white⟩],
     backRankPieces .white]⟩,
   .white, ⟨true, true, true, true⟩, none, 150, 3, .ongoing⟩

/-- A successful shift moves the file and rank by exactly the deltas. -/
theorem Square.shift_spec {sq t : Square} {df dr : Int} (h : sq.shift df dr = some t) :
    (t.file.val : Int) = (sq.file.val : Int) + df ∧
      (t.rank.val : Int) = (sq.rank.val : Int) + dr := by
  unfold Square.shift at h
  split at h
  · rename_i hc
    cases h
    exact ⟨by dsimp; omega, by dsimp; omega⟩
  · cases h

/-- Every member of a promotion expansion shares everything but the
promotion field with the base move, and carries one of the four promotion
kinds exactly when it lands on the last rank. -/
theorem mem_promoExpand {c : Color} {m0 m : Move} (h : m ∈ promoExpand c m0) :
    m.fromSq = m0.fromSq ∧ m.toSq = m0.toSq ∧ m.movingPiece = m0.movingPiece ∧
    m.flags.doublePawnPush = m0.flags.doublePawnPush ∧
    m.flags.enPassant = m0.flags.enPassant ∧
    (m.toSq.rank = lastRank c → ∃ k, k ∈ promoKinds ∧ m.promotion = some k) := by
  unfold promoExpand at h
  split at h
  · rename_i hl
    simp only [List.mem_map] at h
    obtain ⟨k, hk, rfl⟩ := h
    exact ⟨rfl, rfl, rfl, rfl, rfl, fun _ => ⟨k, hk, rfl⟩⟩
  · rename_i hl
    simp only [List.mem_singleton] at h
    subst h
    exact ⟨rfl, rfl, rfl, rfl, rfl, fun hr => absurd hr hl⟩

/-- Every pawn-generated move satisfies the structural predicate. -/
theorem mem_pawnMoves {st : GameState} {sq : Square} {c : Color} {m : Move}
    (h : m ∈ pawnMoves st sq c) : genOk st sq ⟨.pawn, c⟩ m := by
  unfold pawnMoves at h
  simp only [List.mem_append] at h
  rcases h with (h | h) | h
  · -- single push, possibly promoting
    split at h
    · rename_i t hsh
      split at h
      · have hp := mem_promoExpand h
        obtain ⟨h1, h2, h3, h4, h5, h6⟩ := hp
        refine ⟨h1, h3, ?_, ?_, ?_⟩
        · intro hd; rw [h4] at hd; cases hd
        · intro hr _ _; exact h6 hr
        · intro he; rw [h5] at he; cases he
      · cases h
    · cases h
  · -- double push
    split at h
    · rename_i hstart
      split at h
      · rename_i t1 t2 hsh1 hsh2
        split at h
        · simp only [List.mem_singleton] at h
          subst h
          refine ⟨rfl, rfl, fun _ => ⟨rfl, hstart⟩, ?_, ?_⟩
          · intro hr _ _
            exfalso
            have hs2 := (Square.shift_spec hsh2).2
            have hst : sq.rank.val = (startRank c).val := by rw [hstart]
            have hlr : t2.rank.val = (lastRank c).val := by
              simpa using congrArg Fin.val hr
            cases c <;> simp [startRank, lastRank, pawnDir] at hs2 hst hlr <;> omega
          · intro he; simp [baseFlags] at he
        · cases h
      · cases h
    · cases h
  · -- captures, en passant included
    simp only [List.mem_flatMap] at h
    obtain ⟨df, _, h⟩ := h
    split at h
    · rename_i t hsh
      split at h
      · rename_i q hq
        split at h
        · have hp := mem_promoExpand h
          obtain ⟨h1, h2, h3, h4, h5, h6⟩ := hp
          refine ⟨h1, h3, ?_, ?_, ?_⟩
          · intro hd; rw [h4] at hd; cases hd
          · intro hr _ _; exact h6 hr
          · intro he; rw [h5] at he; cases he
        · cases h
      · split at h
        · rename_i hep
          simp only [List.mem_singleton] at h
          subst h
          refine ⟨rfl, rfl, ?_, ?_, ?_⟩
          · intro hd; simp [baseFlags] at hd
          · intro _ _ he; simp [baseFlags] at he
          · intro _; exact hep
        · cases h
    · cases h

/-- Every fixed-offset move satisfies the structural predicate. -/
theorem mem_stepMoves {st : GameState} {sq : Square} {p : Piece} {m : Move}
    {offs : List (Int × Int)} (hp : p.kind ≠ .pawn) (h : m ∈ stepMoves st sq p offs) :
    genOk st sq p m := by
  unfold stepMoves at h
  simp only [List.mem_flatMap] at h
  obtain ⟨d, _, h⟩ := h
  split at h
  · rename_i t hsh
    split at h
    · rename_i q hq
      split at h
      · simp only [List.mem_singleton] at h
        subst h
        refine ⟨rfl, rfl, ?_, ?_, ?_⟩
        · intro hd; simp [baseFlags] at hd
        · intro _ hk; exact absurd hk hp
        · intro he; simp [baseFlags] at he
      · cases h
    · simp only [List.mem_singleton] at h
      subst h
      refine ⟨rfl, rfl, ?_, ?_, ?_⟩
      · intro hd; simp [baseFlags] at hd
      · intro _ hk; exact absurd hk hp
      · intro he; simp [baseFlags] at he
  · cases h

/-- Every ray-walk move satisfies the structural predicate. -/
theorem mem_rayMoves {st : GameState} {p : Piece} {d : Int × Int} (hp : p.kind ≠ .pawn) :
    ∀ (n : Nat) (origin cur : Square) (m : Move),
      m ∈ rayMoves st origin p d n cur → genOk st origin p m := by
  intro n
  induction n with
  | zero => intro origin cur m h; cases h
  | succ k ih =>
    intro origin cur m h
    unfold rayMoves at h
    split at h
    · cases h
    · rename_i t hsh
      split at h
      · rename_i q hq
        split at h
        · simp only [List.mem_singleton] at h
          subst h
          refine ⟨rfl, rfl, ?_, ?_, ?_⟩
          · intro hd; simp [baseFlags] at hd
          · intro _ hk; exact absurd hk hp
          · intro he; simp [baseFlags] at he
        · cases h
      · rcases List.mem_cons.mp h with h | h
        · subst h
          refine ⟨rfl, rfl, ?_, ?_, ?_⟩
          · intro hd; simp [baseFlags] at hd
          · intro _ hk; exact absurd hk hp
          · intro he; simp [baseFlags] at he
        · exact ih origin t m h

/-- Every sliding move satisfies the structural predicate. -/
theorem mem_slideMoves {st : GameState} {sq : Square} {p : Piece} {m : Move}
    {dirs : List (Int × Int)} (hp : p.kind ≠ .pawn) (h : m ∈ slideMoves st sq p dirs) :
    genOk st sq p m := by
  unfold slideMoves at h
  simp only [List.mem_flatMap] at h
  obtain ⟨d, _, h⟩ := h
  exact mem_rayMoves hp 8 sq sq m h

/-- Every castling move satisfies the structural predicate. -/
theorem mem_castleMoves {st : GameState} {sq : Square} {c : Color} {m : Move}
    (h : m ∈ castleMoves st sq c) : genOk st sq ⟨.king, c⟩ m := by
  unfold castleMoves at h
  simp only [List.mem_append] at h
  rcases h with h | h <;>
  · split at h
    · simp only [List.mem_singleton] at h
      subst h
      refine ⟨rfl, rfl, ?_, ?_, ?_⟩
      · intro hd; simp [baseFlags] at hd
      · intro _ hk; simp at hk
      · intro he; simp [baseFlags] at he
    · cases h

/-- Every per-piece generated move satisfies the structural predicate. -/
theorem mem_pieceMoves {st : GameState} {sq : Square} {p : Piece} {m : Move}
    (h : m ∈ pieceMoves st sq p) : genOk st sq p m := by
  obtain ⟨pk, pc⟩ := p
  cases pk with
  | pawn => exact mem_pawnMoves h
  | knight => exact mem_stepMoves (fun hx => by simp at hx) h
  | bishop => exact mem_slideMoves (fun hx => by simp at hx) h
  | rook => exact mem_slideMoves (fun hx => by simp at hx) h
  | queen => exact mem_slideMoves (fun hx => by simp at hx) h
  | king =>
    rcases List.mem_append.mp h with h | h
    · exact mem_stepMoves (fun hx => by simp at hx) h
    · exact mem_castleMoves h

/-- Every pseudo-legal move starts on a square occupied by a piece of the
side to move and satisfies the structural predicate for that piece. -/
theorem mem_pseudoLegalMoves {st : GameState} {m : Move} (h : m ∈ pseudoLegalMoves st) :
    ∃ p, st.board.pieceAt m.fromSq = some p ∧ p.color = st.sideToMove ∧
      genOk st m.fromSq p m := by
  unfold pseudoLegalMoves at h
  simp only [List.mem_flatMap] at h
  obtain ⟨sq, _, h⟩ := h
  split at h
  · rename_i p hp
    split at h
    · rename_i hc
      have hg := mem_pieceMoves h
      have hfrom : m.fromSq = sq := hg.1
      subst hfrom
      exact ⟨p, hp, hc, hg⟩
    · cases h
  · cases h

/-- Legal moves are pseudo-legal moves passing the own-king filter. -/
theorem mem_legalMoves {st : GameState} {m : Move} (h : m ∈ legalMoves st) :
    m ∈ pseudoLegalMoves st ∧ kingAttackedAfter st m = false := by
  unfold legalMoves at h
  rw [List.mem_filter] at h
  exact ⟨h.1, by simpa using h.2⟩

/-- C1: for every reachable GameState, every move in the set returned by
`legalMoves`, when applied, yields a position in which the mover's own king
is not attacked by the opponent; and `legalMoves` equals the pseudo-legal
set filtered by applying each candidate to a cloned board and rejecting
those that leave the mover's king attacked. -/
theorem legalMoves_leave_king_safe (st : GameState) (hr : Reachable st) (m : Move)
    (hm : m ∈ legalMoves st) :
    kingAttackedAfter st m = false ∧
      legalMoves st = (pseudoLegalMoves st).filter fun m2 => !(kingAttackedAfter st m2) :=
  ⟨(mem_legalMoves hm).2, rfl⟩

/-- Witness for C1: the knight move b1-c3 is legal in the initial position
and leaves the white king unattacked. -/
theorem legalMoves_leave_king_safe_witness :
    kingAttackedAfter initialGameState
        ⟨⟨1, 0⟩, ⟨2, 2⟩, ⟨.knight, .white⟩, none, none, baseFlags⟩ = false ∧
      legalMoves initialGameState = (pseudoLegalMoves initialGameState).filter
        fun m2 => !(kingAttackedAfter initialGameState m2) :=
  legalMoves_leave_king_safe initialGameState Reachable.initial
    ⟨⟨1, 0⟩, ⟨2, 2⟩, ⟨.knight, .white⟩, none, none, baseFlags⟩ (by decide)

/-- C2: `applyMove` is atomic on failure: whenever the controller
transition returns an error the controller is unchanged; and in the
component, a falsy or throwing `move` on the FEN clone leaves the
displayed game identical (ChessBoard.tsx lines 16-29). -/
theorem applyMove_atomic_on_failure :
    (∀ (ctrl : GameController) (c : Candidate) (e : EngineError),
      (ctrl.applyMove c).2 = .error e → (ctrl.applyMove c).1 = ctrl) ∧
    (∀ (st : ComponentState) (mv : Candidate),
      (makeAMove st mv).1 = false → (makeAMove st mv).2 = st) := by
  constructor
  · intro ctrl c e h
    rcases hfc : findCandidate ctrl.current c with _ | m
    · simp [GameController.applyMove, hfc]
    · rcases hb : ctrl.current.result.isTerminal with _ | _
      · simp [GameController.applyMove, hfc, hb] at h
      · simp [GameController.applyMove, hfc, hb]
  · intro st mv h
    rcases he : applyMoveG (cloneViaFen st.game) mv with err | g2
    · simp [makeAMove, he]
    · simp [makeAMove, he] at h

/-- Witness for C2: a wrong-turn candidate on a fresh game errors and the
controller value returned alongside the error is the original one. -/
theorem applyMove_atomic_on_failure_witness :
    ((newGameController initialGameState).applyMove ⟨⟨4, 6⟩, ⟨4, 4⟩, none⟩).1 =
      newGameController initialGameState :=
  applyMove_atomic_on_failure.1 (newGameController initialGameState)
    ⟨⟨4, 6⟩, ⟨4, 4⟩, none⟩ .invalidMove (by rfl)

/-- C7: in the GameState constructed from the standard initial position,
`legalMoves` returns a set of exactly 20 moves. -/
theorem initial_position_twenty_moves : (legalMoves initialGameState).length = 20 := by
  decide

/-- C8: a candidate moving a piece whose color is not the side to move is
absent from the legal set, so the controller fails with InvalidMove and is
left unchanged; and the turn-gated `onDrop` variant returns false before
the engine is invoked when it is not the player's turn. -/
theorem wrong_turn_rejected :
    (∀ (ctrl : GameController) (c : Candidate) (p : Piece),
      ctrl.current.board.pieceAt c.fromSq = some p →
      p.color ≠ ctrl.current.sideToMove →
      ctrl.applyMove c = (ctrl, .error .invalidMove)) ∧
    (∀ (st : ComponentState) (pc : Color) (src tgt : Square),
      st.game.sideToMove ≠ pc → onDropTurnGated st pc src tgt = (false, st)) := by
  constructor
  · intro ctrl c p hp hc
    have hnone : findCandidate ctrl.current c = none := by
      rcases hfc : findCandidate ctrl.current c with _ | m
      · rfl
      · exfalso
        have hmem := List.mem_of_find?_eq_some hfc
        have hpred := List.find?_some hfc
        simp only [decide_eq_true_eq] at hpred
        obtain ⟨hfrom, _, _⟩ := hpred
        obtain ⟨q, hq, hqc, _⟩ := mem_pseudoLegalMoves (mem_legalMoves hmem).1
        rw [hfrom] at hq
        rw [hq] at hp
        injection hp with hp
        subst hp
        exact hc hqc
    unfold GameController.applyMove
    rw [hnone]
  · intro st pc src tgt h
    unfold onDropTurnGated
    rw [if_pos h]

/-- Witness for C8: submitting d7-d5 for Black on a fresh game, where it is
White's turn, is rejected as InvalidMove with the controller unchanged, and
the gated drop handler refuses a drop by the black player. -/
theorem wrong_turn_rejected_witness :
    (newGameController initialGameState).applyMove ⟨⟨3, 6⟩, ⟨3, 4⟩, none⟩ =
        (newGameController initialGameState, .error .invalidMove) ∧
      onDropTurnGated ⟨initialGameState⟩ .black ⟨3, 6⟩ ⟨3, 4⟩ = (false, ⟨initialGameState⟩) :=
  ⟨wrong_turn_rejected.1 (newGameController initialGameState) ⟨⟨3, 6⟩, ⟨3, 4⟩, none⟩
      ⟨.pawn, .black⟩ (by decide) (by decide),
    wrong_turn_rejected.2 ⟨initialGameState⟩ .black ⟨3, 6⟩ ⟨3, 4⟩ (by decide)⟩

/-- C10: the drop handler is total at the public boundary: a null source or
target returns false without touching the game, and every rejected drop,
including one whose engine call failed or threw, leaves the displayed game
state unchanged (ChessBoard.tsx lines 16-29 and 31-52). -/
theorem onDrop_total_and_safe :
    (∀ (st : ComponentState) (tgt : Option Square), onDrop st none tgt = (false, st)) ∧
    (∀ (st : ComponentState) (src : Option Square), onDrop st src none = (false, st)) ∧
    (∀ (st : ComponentState) (src tgt : Option Square),
      (onDrop st src tgt).1 = false → (onDrop st src tgt).2 = st) := by
  refine ⟨?_, ?_, ?_⟩
  · intro st tgt; cases tgt <;> rfl
  · intro st src; cases src <;> rfl
  · intro st src tgt h
    cases src with
    | none => rfl
    | some s =>
      cases tgt with
      | none => rfl
      | some t =>
        rcases he : applyMoveG (cloneViaFen st.game) (uiCandidate s t) with err | g2
        · simp [onDrop, makeAMove, he]
        · simp [onDrop, makeAMove, he] at h

/-- Witness for C10: a drop of the black d-pawn while it is White's turn is
rejected and the displayed game is unchanged. -/
theorem onDrop_total_and_safe_witness :
    (onDrop ⟨initialGameState⟩ (some ⟨3, 6⟩) (some ⟨3, 4⟩)).2 = ⟨initialGameState⟩ :=
  onDrop_total_and_safe.2.2 ⟨initialGameState⟩ (some ⟨3, 6⟩) (some ⟨3, 4⟩) (by decide)

/-- C5: the result is classified by the fixed priority chain: check with no
legal move is Checkmate whatever the clock or repetition count says,
DrawFiftyMove holds exactly when the halfmove clock has reached 100 and no
higher-priority rule (checkmate or stalemate) applies, and every state a
successful controller `applyMove` returns carries exactly this
classification. -/
theorem result_priority_order :
    (∀ (st : GameState) (rep : Nat),
      st.isInCheck st.sideToMove = true → legalMoveCount st = 0 →
      computeResult st rep = .checkmate st.sideToMove.opposite) ∧
    (∀ (st : GameState) (rep : Nat),
      computeResult st rep = .drawFiftyMove ↔
        100 ≤ st.halfmoveClock ∧ legalMoveCount st ≠ 0) ∧
    (∀ (ctrl : GameController) (c : Candidate) (ctrl2 : GameController) (s2 : GameState),
      ctrl.applyMove c = (ctrl2, .ok s2) →
      ∃ m rep, s2 = applyMoveState ctrl.current m rep ∧
        s2.result = computeResult (applyMoveBase ctrl.current m) rep) := by
  refine ⟨?_, ?_, ?_⟩
  · intro st rep h1 h2
    unfold computeResult
    rw [if_pos ⟨h1, h2⟩]
  · intro st rep
    constructor
    · intro h
      unfold computeResult at h
      split at h
      · cases h
      · split at h
        · cases h
        · rename_i hnm hns
          split at h
          · rename_i h100
            exact ⟨h100, hns⟩
          · split at h
            · cases h
            · split at h
              · cases h
              · split at h
                · cases h
                · cases h
    · intro ⟨h100, hcnt⟩
      unfold computeResult
      rw [if_neg fun hx => hcnt hx.2, if_neg hcnt, if_pos h100]
  · intro ctrl c ctrl2 s2 h
    unfold GameController.applyMove at h
    split at h
    · have h2 := congrArg Prod.snd h
      simp at h2
    · rename_i m hfc
      split at h
      · have h2 := congrArg Prod.snd h
        simp at h2
      · rename_i hterm
        have h2 := congrArg Prod.snd h
        simp only [] at h2
        injection h2 with hs2
        exact ⟨m, 1 + repetitionCount (controllerStates ctrl) (positionKey (applyMoveState ctrl.current m 1)), hs2.symm, by rw [← hs2]; rfl⟩

/-- Witness for C5: the Fool's Mate position with the halfmove clock forced
to 150 and a claimed repetition count of 5 is still classified Checkmate for
Black. -/
theorem result_priority_order_witness :
    computeResult foolsMateState 5 = .checkmate foolsMateState.sideToMove.opposite :=
  result_priority_order.1 foolsMateState 5 (by decide) (by decide)

/-- C6: castling rights never return once cleared: along any applied move
each right that was false stays false, and moving the king, moving the
relevant rook, or any move touching that rook's home square (capturing what
stands there) clears the corresponding right. -/
theorem castling_rights_monotone (st : GameState) (m : Move) (rep : Nat)
    (hr : Reachable st) (hm : m ∈ legalMoves st) :
    ((st.castlingRights.wk = false → (applyMoveState st m rep).castlingRights.wk = false) ∧
     (st.castlingRights.wq = false → (applyMoveState st m rep).castlingRights.wq = false) ∧
     (st.castlingRights.bk = false → (applyMoveState st m rep).castlingRights.bk = false) ∧
     (st.castlingRights.bq = false → (applyMoveState st m rep).castlingRights.bq = false)) ∧
    ((m.movingPiece = ⟨.king, .white⟩ →
        (applyMoveState st m rep).castlingRights.wk = false ∧
        (applyMoveState st m rep).castlingRights.wq = false) ∧
     (m.movingPiece = ⟨.king, .black⟩ →
        (applyMoveState st m rep).castlingRights.bk = false ∧
        (applyMoveState st m rep).castlingRights.bq = false) ∧
     (m.fromSq = sqH1 ∨ m.toSq = sqH1 → (applyMoveState st m rep).castlingRights.wk = false) ∧
     (m.fromSq = sqA1 ∨ m.toSq = sqA1 → (applyMoveState st m rep).castlingRights.wq = false) ∧
     (m.fromSq = sqH8 ∨ m.toSq = sqH8 → (applyMoveState st m rep).castlingRights.bk = false) ∧
     (m.fromSq = sqA8 ∨ m.toSq = sqA8 → (applyMoveState st m rep).castlingRights.bq = false)) := by
  have hcr : (applyMoveState st m rep).castlingRights = updateRights st.castlingRights m := rfl
  rw [hcr]
  constructor
  · refine ⟨?_, ?_, ?_, ?_⟩ <;> (intro h0; simp [updateRights, h0])
  · refine ⟨?_, ?_, ?_, ?_, ?_, ?_⟩ <;> (intro h0; simp [updateRights, h0])

/-- Witness for C6: moving the white king from e1 (after 1.f3 e5 2.g4 it
cannot, so instead: the knight move b1-c3 from the start) preserves the
four rights that are set, and the clearing clauses hold vacuously. -/
theorem castling_rights_monotone_witness :
    ((initialGameState.castlingRights.wk = false →
        (applyMoveState initialGameState
          ⟨⟨1, 0⟩, ⟨2, 2⟩, ⟨.knight, .white⟩, none, none, baseFlags⟩ 1).castlingRights.wk = false) ∧
     (initialGameState.castlingRights.wq = false →
        (applyMoveState initialGameState
          ⟨⟨1, 0⟩, ⟨2, 2⟩, ⟨.knight, .white⟩, none, none, baseFlags⟩ 1).castlingRights.wq = false) ∧
     (initialGameState.castlingRights.bk = false →
        (applyMoveState initialGameState
          ⟨⟨1, 0⟩, ⟨2, 2⟩, ⟨.knight, .white⟩, none, none, baseFlags⟩ 1).castlingRights.bk = false) ∧
     (initialGameState.castlingRights.bq = false →
        (applyMoveState initialGameState
          ⟨⟨1, 0⟩, ⟨2, 2⟩, ⟨.knight, .white⟩, none, none, baseFlags⟩ 1).castlingRights.bq = false)) ∧
    ((⟨⟨1, 0⟩, ⟨2, 2⟩, ⟨.knight, .white⟩, none, none, baseFlags⟩ : Move).movingPiece = ⟨.king, .white⟩ →
        (applyMoveState initialGameState
          ⟨⟨1, 0⟩, ⟨2, 2⟩, ⟨.knight, .white⟩, none, none, baseFlags⟩ 1).castlingRights.wk = false ∧
        (applyMoveState initialGameState
          ⟨⟨1, 0⟩, ⟨2, 2⟩, ⟨.knight, .white⟩, none, none, baseFlags⟩ 1).castlingRights.wq = false) ∧
    ((⟨⟨1, 0⟩, ⟨2, 2⟩, ⟨.knight, .white⟩, none, none, baseFlags⟩ : Move).movingPiece = ⟨.king, .black⟩ →
        (applyMoveState initialGameState
          ⟨⟨1, 0⟩, ⟨2, 2⟩, ⟨.knight, .white⟩, none, none, baseFlags⟩ 1).castlingRights.bk = false ∧
        (applyMoveState initialGameState
          ⟨⟨1, 0⟩, ⟨2, 2⟩, ⟨.knight, .white⟩, none, none, baseFlags⟩ 1).castlingRights.bq = false) ∧
    ((⟨⟨1, 0⟩, ⟨2, 2⟩, ⟨.knight, .white⟩, none, none, baseFlags⟩ : Move).fromSq = sqH1 ∨
        (⟨⟨1, 0⟩, ⟨2, 2⟩, ⟨.knight, .white⟩, none, none, baseFlags⟩ : Move).toSq = sqH1 →
        (applyMoveState initialGameState
          ⟨⟨1, 0⟩, ⟨2, 2⟩, ⟨.knight, .white⟩, none, none, baseFlags⟩ 1).castlingRights.wk = false) ∧
    ((⟨⟨1, 0⟩, ⟨2, 2⟩, ⟨.knight, .white⟩, none, none, baseFlags⟩ : Move).fromSq = sqA1 ∨
        (⟨⟨1, 0⟩, ⟨2, 2⟩, ⟨.knight, .white⟩, none, none, baseFlags⟩ : Move).toSq = sqA1 →
        (applyMoveState initialGameState
          ⟨⟨1, 0⟩, ⟨2, 2⟩, ⟨.knight, .white⟩, none, none, baseFlags⟩ 1).castlingRights.wq = false) ∧
    ((⟨⟨1, 0⟩, ⟨2, 2⟩, ⟨.knight, .white⟩, none, none, baseFlags⟩ : Move).fromSq = sqH8 ∨
        (⟨⟨1, 0⟩, ⟨2, 2⟩, ⟨.knight, .white⟩, none, none, baseFlags⟩ : Move).toSq = sqH8 →
        (applyMoveState initialGameState
          ⟨⟨1, 0⟩, ⟨2, 2⟩, ⟨.knight, .white⟩, none, none, baseFlags⟩ 1).castlingRights.bk = false) ∧
    ((⟨⟨1, 0⟩, ⟨2, 2⟩, ⟨.knight, .white⟩, none, none, baseFlags⟩ : Move).fromSq = sqA8 ∨
        (⟨⟨1, 0⟩, ⟨2, 2⟩, ⟨.knight, .white⟩, none, none, baseFlags⟩ : Move).toSq = sqA8 →
        (applyMoveState initialGameState
          ⟨⟨1, 0⟩, ⟨2, 2⟩, ⟨.knight, .white⟩, none, none, baseFlags⟩ 1).castlingRights.bq = false) :=
  castling_rights_monotone initialGameState
    ⟨⟨1, 0⟩, ⟨2, 2⟩, ⟨.knight, .white⟩, none, none, baseFlags⟩ 1
    Reachable.initial (by decide)

/-- C4: from a non-terminal state, applying a legal move through the
controller and then undoing restores a GameState with an identical FEN
(indeed the very state), and undo on an empty history is a benign no-op
returning none and changing nothing. -/
theorem apply_then_undo_restores_fen :
    (∀ (ctrl : GameController) (m : Move),
      controllerInv ctrl →
      ctrl.current.result.isTerminal = false →
      m ∈ legalMoves ctrl.current →
      ∃ ctrl2 s2, ctrl.applyMove (candOf m) = (ctrl2, .ok s2) ∧
        (ctrl2.undo).1 = some ctrl.current ∧
        fenSerialize ((ctrl2.undo).2.current) = fenSerialize ctrl.current) ∧
    (∀ ctrl : GameController, ctrl.history = [] → ctrl.undo = (none, ctrl)) := by
  constructor
  · intro ctrl m hinv hterm hm
    have hsome : (findCandidate ctrl.current (candOf m)).isSome := by
      unfold findCandidate
      exact List.find?_isSome.mpr ⟨m, hm, by simp [candOf]⟩
    obtain ⟨m2, hfc⟩ := Option.isSome_iff_exists.mp hsome
    have hA : ctrl.applyMove (candOf m) =
        (⟨ctrl.initialState,
          applyMoveState ctrl.current m2 (1 + repetitionCount (controllerStates ctrl)
            (positionKey (applyMoveState ctrl.current m2 1))),
          (m2, applyMoveState ctrl.current m2 (1 + repetitionCount (controllerStates ctrl)
            (positionKey (applyMoveState ctrl.current m2 1)))) :: ctrl.history⟩,
         .ok (applyMoveState ctrl.current m2 (1 + repetitionCount (controllerStates ctrl)
            (positionKey (applyMoveState ctrl.current m2 1))))) := by
      simp [GameController.applyMove, hfc, hterm]
    refine ⟨_, _, hA, ?_, ?_⟩
    · unfold GameController.undo
      cases hh : ctrl.history with
      | nil =>
        unfold controllerInv at hinv
        rw [hh] at hinv
        simpa using hinv
      | cons hd tl =>
        unfold controllerInv at hinv
        rw [hh] at hinv
        simpa using hinv
    · unfold GameController.undo
      cases hh : ctrl.history with
      | nil =>
        unfold controllerInv at hinv
        rw [hh] at hinv
        simp at hinv
        rw [hinv]
      | cons hd tl =>
        unfold controllerInv at hinv
        rw [hh] at hinv
        simp at hinv
        dsimp only
        rw [hinv]
  · intro ctrl h
    unfold GameController.undo
    rw [h]

/-- Witness for C4: applying the knight move b1-c3 on a fresh controller
and undoing returns the initial state, FEN included. -/
theorem apply_then_undo_restores_fen_witness :
    ∃ ctrl2 s2, (newGameController initialGameState).applyMove
        (candOf ⟨⟨1, 0⟩, ⟨2, 2⟩, ⟨.knight, .white⟩, none, none, baseFlags⟩) = (ctrl2, .ok s2) ∧
      (ctrl2.undo).1 = some (newGameController initialGameState).current ∧
      fenSerialize ((ctrl2.undo).2.current) =
        fenSerialize (newGameController initialGameState).current :=
  apply_then_undo_restores_fen.1 (newGameController initialGameState)
    ⟨⟨1, 0⟩, ⟨2, 2⟩, ⟨.knight, .white⟩, none, none, baseFlags⟩ rfl rfl (by decide)

/-- C9: when a pawn move reaches the last rank the legal set only contains
candidates carrying one of the four promotion kinds, so a candidate whose
promotion is missing or names a non-promotable kind fails with InvalidMove
and the engine never substitutes a queen; the shipped drop handler instead
hardcodes promotion queen for every drop (ChessBoard.tsx lines 36-40). -/
theorem promotion_requires_explicit_kind :
    (∀ (ctrl : GameController) (c : Candidate),
      epOkB ctrl.current.enPassantTarget = true →
      ctrl.current.board.pieceAt c.fromSq = some ⟨.pawn, ctrl.current.sideToMove⟩ →
      c.toSq.rank = lastRank ctrl.current.sideToMove →
      (c.promotion = none ∨ c.promotion = some .pawn ∨ c.promotion = some .king) →
      ctrl.applyMove c = (ctrl, .error .invalidMove)) ∧
    (∀ src tgt : Square, (uiCandidate src tgt).promotion = some .queen) := by
  constructor
  · intro ctrl c hep hp ht hpr
    have hnone : findCandidate ctrl.current c = none := by
      rcases hfc : findCandidate ctrl.current c with _ | m
      · rfl
      · exfalso
        have hmem := List.mem_of_find?_eq_some hfc
        have hpred := List.find?_some hfc
        simp only [decide_eq_true_eq] at hpred
        obtain ⟨hfrom, hto, hprom⟩ := hpred
        obtain ⟨q, hq, hqc, hgen⟩ := mem_pseudoLegalMoves (mem_legalMoves hmem).1
        obtain ⟨hg1, hg2, hg3, hg4, hg5⟩ := hgen
        rw [hfrom] at hq
        rw [hq] at hp
        injection hp with hp
        have hepflag : m.flags.enPassant = false := by
          rcases hb : m.flags.enPassant with _ | _
          · rfl
          · exfalso
            have hln := hg5 hb
            rw [hln] at hep
            have hval : m.toSq.rank.val = 2 ∨ m.toSq.rank.val = 5 := by
              simpa [epOkB] using hep
            have hlr : m.toSq.rank.val = (lastRank ctrl.current.sideToMove).val := by
              rw [hto, ht]
            have hlv : (lastRank ctrl.current.sideToMove).val = 7 ∨
                (lastRank ctrl.current.sideToMove).val = 0 := by
              cases ctrl.current.sideToMove <;> decide
            omega
        have hpk : q.kind = .pawn := by rw [hp]
        have hlast : m.toSq.rank = lastRank q.color := by
          rw [hto, hp]
          exact ht
        obtain ⟨k, hk, hkp⟩ := hg4 hlast hpk hepflag
        rw [hprom] at hkp
        rcases hpr with h0 | h0 | h0 <;> rw [h0] at hkp
        · cases hkp
        · injection hkp with hkk
          rw [← hkk] at hk
          simp [promoKinds] at hk
        · injection hkp with hkk
          rw [← hkk] at hk
          simp [promoKinds] at hk
    unfold GameController.applyMove
    rw [hnone]
  · intro src tgt
    rfl

/-- Witness for C9: with the white pawn on a7, the bare candidate a7-a8
with no promotion kind is rejected as InvalidMove with the controller
unchanged, while the UI candidate always carries queen. -/
theorem promotion_requires_explicit_kind_witness :
    (newGameController promoTestState).applyMove ⟨⟨0, 6⟩, ⟨0, 7⟩, none⟩ =
        (newGameController promoTestState, .error .invalidMove) ∧
      (uiCandidate ⟨0, 6⟩ ⟨0, 7⟩).promotion = some .queen :=
  ⟨promotion_requires_explicit_kind.1 (newGameController promoTestState)
      ⟨⟨0, 6⟩, ⟨0, 7⟩, none⟩ (by decide) (by decide) (by decide) (Or.inl rfl),
    promotion_requires_explicit_kind.2 ⟨0, 6⟩ ⟨0, 7⟩⟩

/-- Numeric value of a digit character below ten. -/
theorem digitChar_toNat {n : Nat} (h : n ≤ 9) : (digitChar n).toNat = 48 + n := by
  interval_cases n <;> decide

/-- Digit characters below ten satisfy `Char.isDigit`. -/
theorem digitChar_isDigit {n : Nat} (h : n ≤ 9) : (digitChar n).isDigit = true := by
  interval_cases n <;> decide

/-- Digit characters are not the rank separator. -/
theorem digitChar_ne_slash {n : Nat} (h : n ≤ 9) : digitChar n ≠ '/' := by
  interval_cases n <;> decide

/-- Digit characters are not the field separator. -/
theorem digitChar_ne_space {n : Nat} (h : n ≤ 9) : digitChar n ≠ ' ' := by
  interval_cases n <;> decide

/-- A piece letter decodes back to its piece. -/
theorem charPiece_pieceChar (p : Piece) : charPiece (pieceChar p) = some p := by
  obtain ⟨pk, pc⟩ := p
  cases pk <;> cases pc <;> decide

/-- Piece letters are not digits. -/
theorem pieceChar_not_digit (p : Piece) : (pieceChar p).isDigit = false := by
  obtain ⟨pk, pc⟩ := p
  cases pk <;> cases pc <;> decide

/-- Piece letters are not the rank separator. -/
theorem pieceChar_ne_slash (p : Piece) : pieceChar p ≠ '/' := by
  obtain ⟨pk, pc⟩ := p
  cases pk <;> cases pc <;> decide

/-- Piece letters are not the field separator. -/
theorem pieceChar_ne_space (p : Piece) : pieceChar p ≠ ' ' := by
  obtain ⟨pk, pc⟩ := p
  cases pk <;> cases pc <;> decide

/-- Digit characters are not digits-plus-letters confusion: a character of
an emitted rank is either a run-length digit between one and eight or a
piece letter. -/
theorem mem_emitRank {l : List (Option Piece)} {n : Nat} {c : Char}
    (hn : n + l.length ≤ 8) (hc : c ∈ emitRank l n) :
    (∃ k, 1 ≤ k ∧ k ≤ 8 ∧ c = digitChar k) ∨ (∃ p, c = pieceChar p) := by
  induction l generalizing n with
  | nil =>
    cases n with
    | zero => cases hc
    | succ k =>
      simp only [emitRank, List.mem_singleton] at hc
      subst hc
      exact Or.inl ⟨k + 1, by omega, by simpa using hn, rfl⟩
  | cons hd rest ih =>
    cases hd with
    | none =>
      exact ih (by simp at hn ⊢; omega) hc
    | some p =>
      cases n with
      | zero =>
        simp only [emitRank, List.mem_cons] at hc
        rcases hc with hc | hc
        · exact Or.inr ⟨p, hc⟩
        · exact ih (by simp at hn ⊢; omega) hc
      | succ k =>
        simp only [emitRank, List.mem_cons] at hc
        rcases hc with hc | hc | hc
        · subst hc
          exact Or.inl ⟨k + 1, by omega, by simp at hn; omega, rfl⟩
        · exact Or.inr ⟨p, hc⟩
        · exact ih (by simp at hn ⊢; omega) hc

/-- Expanding an emitted rank restores the squares, the pending empties
first. -/
theorem rankExpand_emitRank {l : List (Option Piece)} {n : Nat}
    (hn : n + l.length ≤ 8) :
    rankExpand (emitRank l n) = some (List.replicate n none ++ l) := by
  induction l generalizing n with
  | nil =>
    cases n with
    | zero => rfl
    | succ k =>
      have hk : k + 1 ≤ 9 := by simp at hn; omega
      simp only [emitRank, rankExpand, digitChar_isDigit (by omega : k + 1 ≤ 9), if_pos]
      simp [digitChar_toNat (by omega : k + 1 ≤ 9)]
  | cons hd rest ih =>
    cases hd with
    | none =>
      have := ih (n := n + 1) (by simp at hn ⊢; omega)
      rw [emitRank, this]
      simp [List.replicate_succ', List.append_assoc]
    | some p =>
      cases n with
      | zero =>
        rw [emitRank, rankExpand]
        rw [if_neg (by simp [pieceChar_not_digit])]
        rw [charPiece_pieceChar]
        rw [ih (n := 0) (by simp at hn ⊢; omega)]
        rfl
      | succ k =>
        rw [emitRank, rankExpand]
        rw [if_pos (digitChar_isDigit (by simp at hn; omega))]
        rw [rankExpand]
        rw [if_neg (by simp [pieceChar_not_digit])]
        rw [charPiece_pieceChar]
        rw [ih (n := 0) (by simp at hn ⊢; omega)]
        simp [digitChar_toNat (by simp at hn; omega : k + 1 ≤ 9), List.replicate_succ']

/-- Splitting a separator-free chunk yields just that chunk. -/
theorem splitSep_no_sep {sep : Char} {chunk : List Char} (h : sep ∉ chunk) :
    splitSep sep chunk = [chunk] := by
  induction chunk with
  | nil => rfl
  | cons c rest ih =>
    have hc : c ≠ sep := fun hx => h (hx ▸ List.mem_cons_self c rest)
    have hrest : sep ∉ rest := fun hx => h (List.mem_cons_of_mem c hx)
    simp only [splitSep, if_neg hc, ih hrest]

/-- Splitting past a separator-free chunk peels off exactly that chunk. -/
theorem splitSep_append {sep : Char} {chunk rest : List Char} (h : sep ∉ chunk) :
    splitSep sep (chunk ++ sep :: rest) = chunk :: splitSep sep rest := by
  induction chunk with
  | nil => simp [splitSep]
  | cons c cs ih =>
    have hc : c ≠ sep := fun hx => h (hx ▸ List.mem_cons_self c cs)
    have hcs : sep ∉ cs := fun hx => h (List.mem_cons_of_mem c hx)
    simp only [List.cons_append, splitSep, if_neg hc]
    rw [List.append_eq, ih hcs]

/-- Splitting undoes joining for nonempty separator-free chunk lists. -/
theorem splitSep_joinSep {sep : Char} {chunks : List (List Char)} (hne : chunks ≠ [])
    (h : ∀ ch ∈ chunks, sep ∉ ch) :
    splitSep sep (joinSep sep chunks) = chunks := by
  induction chunks with
  | nil => exact absurd rfl hne
  | cons x xs ih =>
    cases xs with
    | nil => exact splitSep_no_sep (h x (by simp))
    | cons y ys =>
      show splitSep sep (x ++ sep :: joinSep sep (y :: ys)) = x :: y :: ys
      rw [splitSep_append (h x (by simp))]
      rw [ih (by simp) fun ch hch => h ch (List.mem_cons_of_mem x hch)]

/-- One emitted rank parses back to its eight squares. -/
theorem parseRankField_emitRank {r : List (Option Piece)} (h : r.length = 8) :
    parseRankField (emitRank r 0) = some r := by
  unfold parseRankField
  rw [rankExpand_emitRank (by omega)]
  simp [h]

/-- A list of emitted ranks of eight squares each parses back to itself. -/
theorem parseRanks_emitRank {rs : List (List (Option Piece))}
    (h : ∀ r ∈ rs, r.length = 8) :
    parseRanks (rs.map fun r => emitRank r 0) = some rs := by
  induction rs with
  | nil => rfl
  | cons r rest ih =>
    simp only [List.map_cons, parseRanks]
    rw [parseRankField_emitRank (h r (by simp)),
      ih fun x hx => h x (List.mem_cons_of_mem r hx)]

/-- The rank separator never occurs inside an emitted rank. -/
theorem slash_notMem_emitRank {r : List (Option Piece)} (h : r.length = 8) :
    ('/' : Char) ∉ emitRank r 0 := by
  intro hmem
  rcases mem_emitRank (by omega) hmem with ⟨k, _, hk8, heq⟩ | ⟨p, heq⟩
  · exact digitChar_ne_slash (by omega) heq.symm
  · exact pieceChar_ne_slash p heq.symm

/-- The serialized board field parses back to the original board. -/
theorem parseBoardField_roundtrip {b : Board} (h8 : b.ranks.length = 8)
    (hall : ∀ r ∈ b.ranks, r.length = 8) :
    parseBoardField (serializeBoardField b) = some b := by
  obtain ⟨ranks⟩ := b
  have hsplit : splitSep '/' (joinSep '/' (ranks.map fun r => emitRank r 0)) =
      ranks.map fun r => emitRank r 0 := by
    refine splitSep_joinSep ?_ ?_
    · intro hx
      have hlen := congrArg List.length hx
      simp at hlen
      simp at h8
      rw [hlen] at h8
      cases h8
    · intro ch hch
      obtain ⟨r, hr, rfl⟩ := List.mem_map.mp hch
      exact slash_notMem_emitRank (hall r hr)
  unfold parseBoardField serializeBoardField
  rw [hsplit]
  rw [if_pos (by simp at h8 ⊢; exact h8)]
  rw [parseRanks_emitRank hall]

/-- The digit emitter never produces an empty list. -/
theorem natDigitsAux_ne_nil (fuel n : Nat) : natDigitsAux fuel n ≠ [] := by
  cases fuel with
  | zero => simp [natDigitsAux]
  | succ f =>
    unfold natDigitsAux
    split
    · simp
    · simp

/-- Every character the digit emitter produces is a digit. -/
theorem natDigitsAux_all_digits : ∀ (fuel n : Nat), n ≤ fuel ∨ n < 10 →
    (natDigitsAux fuel n).all Char.isDigit = true := by
  intro fuel
  induction fuel with
  | zero =>
    intro n hn
    have h10 : n < 10 := by omega
    simp [natDigitsAux, digitChar_isDigit (by omega : n ≤ 9)]
  | succ f ih =>
    intro n hn
    unfold natDigitsAux
    split
    · rename_i h10
      simp [digitChar_isDigit (by omega : n ≤ 9)]
    · rename_i h10
      rw [List.all_append]
      rw [ih (n / 10) (by omega)]
      simp [digitChar_isDigit (by omega : n % 10 ≤ 9)]

/-- Folding the digit-value step over emitted digits recovers the number,
shifted past any accumulator. -/
theorem natDigitsAux_foldl : ∀ (fuel n acc : Nat), n ≤ fuel ∨ n < 10 →
    (natDigitsAux fuel n).foldl (fun a c => a * 10 + (c.toNat - 48)) acc =
      acc * 10 ^ (natDigitsAux fuel n).length + n := by
  intro fuel
  induction fuel with
  | zero =>
    intro n acc hn
    have h10 : n < 10 := by omega
    simp [natDigitsAux, List.foldl, digitChar_toNat (by omega : n ≤ 9)]
  | succ f ih =>
    intro n acc hn
    unfold natDigitsAux
    split
    · rename_i h10
      simp [List.foldl, digitChar_toNat (by omega : n ≤ 9)]
    · rename_i h10
      rw [List.foldl_append]
      rw [ih (n / 10) acc (by omega)]
      have hdm : n / 10 * 10 + n % 10 = n := by omega
      calc (acc * 10 ^ (natDigitsAux f (n / 10)).length + n / 10) * 10 +
            ((digitChar (n % 10)).toNat - 48)
          = (acc * 10 ^ (natDigitsAux f (n / 10)).length + n / 10) * 10 + n % 10 := by
            rw [digitChar_toNat (by omega : n % 10 ≤ 9)]
            omega
        _ = acc * (10 ^ (natDigitsAux f (n / 10)).length * 10) +
            (n / 10 * 10 + n % 10) := by ring
        _ = acc * 10 ^ ((natDigitsAux f (n / 10)).length + 1) + n := by
            rw [hdm, pow_succ]
        _ = acc * 10 ^ (natDigitsAux f (n / 10) ++ [digitChar (n % 10)]).length + n := by
            simp

/-- A serialized clock field parses back to the number. -/
theorem parseNatField_natDigits (n : Nat) : parseNatField (natDigits n) = some n := by
  unfold parseNatField natDigits
  rw [if_pos ⟨natDigitsAux_ne_nil n n, natDigitsAux_all_digits n n (Or.inl le_rfl)⟩]
  unfold digitsVal
  rw [natDigitsAux_foldl n n 0 (Or.inl le_rfl)]
  simp

/-- A serialized castling field parses back to the same four rights. -/
theorem parseCastling_roundtrip (cr : CastlingRights) :
    parseCastling (serializeCastling cr) = some cr := by
  obtain ⟨wk, wq, bk, bq⟩ := cr
  cases wk <;> cases wq <;> cases bk <;> cases bq <;> decide

/-- A serialized side field parses back to the same color. -/
theorem parseSide_roundtrip (c : Color) : parseSide (serializeSide c) = some c := by
  cases c <;> rfl

/-- A serialized en-passant field on rank 3 or 6 parses back unchanged. -/
theorem parseEp_roundtrip (ep : Option Square) (h : epOkB ep = true) :
    parseEp (serializeEp ep) = some ep := by
  cases ep with
  | none => rfl
  | some sq =>
    have hv : sq.rank.val = 2 ∨ sq.rank.val = 5 := by simpa [epOkB] using h
    exact (by decide : ∀ t : Square, (t.rank.val = 2 ∨ t.rank.val = 5) →
      parseEp (serializeEp (some t)) = some (some t)) sq hv

/-- A character of a joined chunk list is the separator or comes from one
of the chunks. -/
theorem mem_joinSep {sep : Char} {chunks : List (List Char)} {c : Char}
    (h : c ∈ joinSep sep chunks) : c = sep ∨ ∃ ch ∈ chunks, c ∈ ch := by
  induction chunks with
  | nil => cases h
  | cons x xs ih =>
    cases xs with
    | nil => exact Or.inr ⟨x, by simp, h⟩
    | cons y ys =>
      have h2 : c ∈ x ++ sep :: joinSep sep (y :: ys) := h
      rcases List.mem_append.mp h2 with h3 | h3
      · exact Or.inr ⟨x, by simp, h3⟩
      · rcases List.mem_cons.mp h3 with h4 | h4
        · exact Or.inl h4
        · rcases ih h4 with h5 | ⟨ch, hch, hc⟩
          · exact Or.inl h5
          · exact Or.inr ⟨ch, List.mem_cons_of_mem x hch, hc⟩

/-- The field separator never occurs in a serialized board field. -/
theorem space_notMem_board {b : Board} (h8 : b.ranks.length = 8)
    (hall : ∀ r ∈ b.ranks, r.length = 8) : (' ' : Char) ∉ serializeBoardField b := by
  intro hmem
  rcases mem_joinSep hmem with h | ⟨ch, hch, hc⟩
  · exact absurd h (by decide)
  · obtain ⟨r, hr, rfl⟩ := List.mem_map.mp hch
    rcases mem_emitRank (by rw [hall r hr]) hc with ⟨k, _, hk8, heq⟩ | ⟨p, heq⟩
    · exact digitChar_ne_space (by omega) heq.symm
    · exact pieceChar_ne_space p heq.symm

/-- The field separator never occurs in a serialized side field. -/
theorem space_notMem_side (c : Color) : (' ' : Char) ∉ serializeSide c := by
  cases c <;> decide

/-- The field separator never occurs in a serialized castling field. -/
theorem space_notMem_castling (cr : CastlingRights) :
    (' ' : Char) ∉ serializeCastling cr := by
  obtain ⟨wk, wq, bk, bq⟩ := cr
  cases wk <;> cases wq <;> cases bk <;> cases bq <;> decide

/-- The field separator never occurs in a serialized en-passant field. -/
theorem space_notMem_ep (ep : Option Square) : (' ' : Char) ∉ serializeEp ep := by
  cases ep with
  | none => decide
  | some sq => exact (by decide : ∀ t : Square, (' ' : Char) ∉ serializeEp (some t)) sq

/-- The field separator never occurs in a serialized clock field. -/
theorem space_notMem_natDigits (n : Nat) : (' ' : Char) ∉ natDigits n := by
  intro hmem
  have hall := natDigitsAux_all_digits n n (Or.inl le_rfl)
  rw [List.all_eq_true] at hall
  exact absurd (hall _ hmem) (by decide)

/-- Serializing a well-formed GameState and parsing it back succeeds and
restores all six FEN fields. -/
theorem fenParse_fenSerialize {st : GameState} (hwf : stateWF st) :
    fenParse (fenSerialize st) = .ok
      { board := st.board, sideToMove := st.sideToMove,
        castlingRights := st.castlingRights, enPassantTarget := st.enPassantTarget,
        halfmoveClock := st.halfmoveClock, fullmoveNumber := st.fullmoveNumber,
        result := computeResult ⟨st.board, st.sideToMove, st.castlingRights,
          st.enPassantTarget, st.halfmoveClock, st.fullmoveNumber, .ongoing⟩ 1 } := by
  obtain ⟨⟨h8, hall⟩, hep⟩ := hwf
  have hsplit : splitSep ' ' (fenSerialize st) =
      [serializeBoardField st.board, serializeSide st.sideToMove,
       serializeCastling st.castlingRights, serializeEp st.enPassantTarget,
       natDigits st.halfmoveClock, natDigits st.fullmoveNumber] := by
    unfold fenSerialize
    refine splitSep_joinSep (by simp) ?_
    intro ch hch
    simp only [List.mem_cons, List.not_mem_nil, or_false] at hch
    rcases hch with rfl | rfl | rfl | rfl | rfl | rfl
    · exact space_notMem_board h8 hall
    · exact space_notMem_side st.sideToMove
    · exact space_notMem_castling st.castlingRights
    · exact space_notMem_ep st.enPassantTarget
    · exact space_notMem_natDigits st.halfmoveClock
    · exact space_notMem_natDigits st.fullmoveNumber
  unfold fenParse
  rw [hsplit]
  simp only [parseBoardField_roundtrip h8 hall, parseSide_roundtrip,
    parseCastling_roundtrip, parseEp_roundtrip st.enPassantTarget hep,
    parseNatField_natDigits]

/-- A successfully parsed rank has exactly eight squares. -/
theorem parseRankField_ok {cs : List Char} {r : List (Option Piece)}
    (h : parseRankField cs = some r) : r.length = 8 := by
  unfold parseRankField at h
  split at h
  · split at h
    · rename_i hl
      injection h with h
      subst h
      exact hl
    · cases h
  · cases h

/-- Successfully parsed rank lists preserve the count and validate every
rank. -/
theorem parseRanks_ok : ∀ {parts : List (List Char)} {rs : List (List (Option Piece))},
    parseRanks parts = some rs → rs.length = parts.length ∧ ∀ r ∈ rs, r.length = 8 := by
  intro parts
  induction parts with
  | nil =>
    intro rs h
    injection h with h
    subst h
    exact ⟨rfl, by simp⟩
  | cons cs rest ih =>
    intro rs h
    unfold parseRanks at h
    split at h
    · rename_i r rs2 hr hrs
      injection h with h
      subst h
      obtain ⟨hlen, hall⟩ := ih hrs
      refine ⟨by simp [hlen], ?_⟩
      intro x hx
      rcases List.mem_cons.mp hx with rfl | hx
      · exact parseRankField_ok hr
      · exact hall x hx
    · cases h

/-- A successfully parsed board field is well formed. -/
theorem parseBoardField_wf {cs : List Char} {b : Board}
    (h : parseBoardField cs = some b) : boardWF b := by
  unfold parseBoardField at h
  split at h
  · rename_i hlen
    split at h
    · rename_i rs hrs
      injection h with h
      subst h
      obtain ⟨hl, hall⟩ := parseRanks_ok hrs
      exact ⟨by rw [hl, hlen], hall⟩
    · cases h
  · cases h

/-- A successfully parsed en-passant field is on rank 3 or rank 6. -/
theorem parseEp_ok : ∀ {cs : List Char} {ep : Option Square},
    parseEp cs = some ep → epOkB ep = true := by
  intro cs ep h
  unfold parseEp at h
  split at h
  · injection h with h
    subst h
    rfl
  · rename_i cf cr
    split at h
    · rename_i hc
      injection h with h
      subst h
      simp [epOkB]
      omega
    · cases h
  · cases h

/-- A successfully parsed FEN yields a well-formed GameState. -/
theorem fenParse_wf {cs : List Char} {st : GameState}
    (h : fenParse cs = .ok st) : stateWF st := by
  unfold fenParse at h
  split at h
  · rename_i f1 f2 f3 f4 f5 f6
    split at h
    · cases h
    · rename_i b hb
      split at h
      · cases h
      · rename_i stm hstm
        split at h
        · cases h
        · rename_i cr hcr
          split at h
          · cases h
          · rename_i ep hepp
            split at h
            · cases h
            · rename_i hm hhm
              split at h
              · cases h
              · rename_i fm hfm
                injection h with h
                subst h
                exact ⟨parseBoardField_wf hb, parseEp_ok hepp⟩
  · cases h

/-- Overwriting one square preserves board well-formedness. -/
theorem setPiece_boardWF {b : Board} {sq : Square} {v : Option Piece}
    (h : boardWF b) : boardWF (b.setPiece sq v) := by
  obtain ⟨h8, hall⟩ := h
  constructor
  · simp [Board.setPiece, h8]
  · intro r hr
    unfold Board.setPiece at hr
    simp only [] at hr
    rcases List.mem_or_eq_of_mem_set hr with hr | rfl
    · exact hall r hr
    · rw [List.length_set]
      have hlt : 7 - sq.rank.val < b.ranks.length := by rw [h8]; omega
      rw [List.getD_eq_getElem b.ranks [] hlt]
      exact hall _ (List.getElem_mem hlt)

/-- Applying any move preserves board well-formedness. -/
theorem withMove_boardWF {b : Board} {m : Move} (h : boardWF b) :
    boardWF (b.withMove m) := by
  unfold Board.withMove
  dsimp only
  split
  · apply setPiece_boardWF
    apply setPiece_boardWF
    split
    · exact setPiece_boardWF (setPiece_boardWF (setPiece_boardWF h))
    · exact setPiece_boardWF (setPiece_boardWF h)
  · split
    · apply setPiece_boardWF
      apply setPiece_boardWF
      split
      · exact setPiece_boardWF (setPiece_boardWF (setPiece_boardWF h))
      · exact setPiece_boardWF (setPiece_boardWF h)
    · split
      · exact setPiece_boardWF (setPiece_boardWF (setPiece_boardWF h))
      · exact setPiece_boardWF (setPiece_boardWF h)

/-- Any en-passant target a legal move creates sits on rank 3 or rank 6. -/
theorem applyMoveState_epOk {st : GameState} {m : Move} {rep : Nat}
    (hm : m ∈ legalMoves st) :
    epOkB (applyMoveState st m rep).enPassantTarget = true := by
  have hepdef : (applyMoveState st m rep).enPassantTarget =
      (if m.flags.doublePawnPush then m.fromSq.shift 0 (pawnDir m.movingPiece.color)
       else none) := rfl
  rw [hepdef]
  split
  · rename_i hd
    obtain ⟨q, hq, hqc, hgen⟩ := mem_pseudoLegalMoves (mem_legalMoves hm).1
    obtain ⟨hg1, hg2, hg3, hg4, hg5⟩ := hgen
    obtain ⟨hk, hrk⟩ := hg3 hd
    rcases hsh : m.fromSq.shift 0 (pawnDir m.movingPiece.color) with _ | t
    · rfl
    · have hspec := (Square.shift_spec hsh).2
      have hrv : m.fromSq.rank.val = (startRank q.color).val := congrArg Fin.val hrk
      unfold epOkB
      rw [decide_eq_true_eq]
      rw [hg2] at hspec
      cases hcq : q.color with
      | white =>
        rw [hcq] at hspec hrv
        simp [pawnDir] at hspec
        simp [startRank] at hrv
        omega
      | black =>
        rw [hcq] at hspec hrv
        simp [pawnDir] at hspec
        simp [startRank] at hrv
        omega
  · rfl

/-- Applying a legal move preserves GameState well-formedness. -/
theorem applyMoveState_wf {st : GameState} {m : Move} {rep : Nat}
    (hwf : stateWF st) (hm : m ∈ legalMoves st) :
    stateWF (applyMoveState st m rep) :=
  ⟨withMove_boardWF hwf.1, applyMoveState_epOk hm⟩

/-- Every reachable GameState is well formed. -/
theorem reachable_stateWF {st : GameState} (h : Reachable st) : stateWF st := by
  induction h with
  | initial => exact ⟨⟨by decide, by decide⟩, by decide⟩
  | ofFen cs st hp => exact fenParse_wf hp
  | step st m rep hr hm hterm ih => exact applyMoveState_wf ih hm

/-- C3: for every reachable GameState, parsing the serialized FEN succeeds
and restores all six FEN fields: board, side to move, castling rights in
KQkq order with a dash for none, en-passant target with a dash for none,
halfmove clock and fullmove number — the round-trip the component relies on
when cloning the game via `new Chess(game.fen())` (ChessBoard.tsx line 18). -/
theorem fen_serialize_parse_roundtrip (st : GameState) (hr : Reachable st) :
    ∃ t, fenParse (fenSerialize st) = .ok t ∧
      t.board = st.board ∧ t.sideToMove = st.sideToMove ∧
      t.castlingRights = st.castlingRights ∧ t.enPassantTarget = st.enPassantTarget ∧
      t.halfmoveClock = st.halfmoveClock ∧ t.fullmoveNumber = st.fullmoveNumber :=
  ⟨_, fenParse_fenSerialize (reachable_stateWF hr), rfl, rfl, rfl, rfl, rfl, rfl⟩

/-- Witness for C3: the round-trip at the standard initial position. -/
theorem fen_serialize_parse_roundtrip_witness :
    ∃ t, fenParse (fenSerialize initialGameState) = .ok t ∧
      t.board = initialGameState.board ∧ t.sideToMove = initialGameState.sideToMove ∧
      t.castlingRights = initialGameState.castlingRights ∧
      t.enPassantTarget = initialGameState.enPassantTarget ∧
      t.halfmoveClock = initialGameState.halfmoveClock ∧
      t.fullmoveNumber = initialGameState.fullmoveNumber :=
  fen_serialize_parse_roundtrip initialGameState Reachable.initial
